import Mathlib

/-!
Verification development for the `rene.py` file-renaming utility
(`src/rene/rene.py`).  The Python source is shallowly embedded: names are
`List Char`, Python integers are `Int`, fallible operations (Python
exceptions, or functions that can fall through and return `None`) are
modelled with `Option`.  Characters are treated as ASCII (the classifier
functions `isdigit`/`isalpha`/`islower` of Python agree with the Lean
`Char` classifiers on ASCII, which covers every name the claims mention).
-/

namespace Rene

/-- First `some` produced by `f` over a list, in order (models the first
successful alternative of a backtracking search). -/
def firstSome (f : α → Option β) : List α → Option β
  | [] => none
  | a :: as =>
    match f a with
    | some b => some b
    | none => firstSome f as

/-- Split a char list on a separator, keeping empty fields
(Python `str.split(sep)`; `"".split(sep) == [""]`). -/
def splitOn (sep : Char) : List Char → List (List Char)
  | [] => [[]]
  | c :: rest =>
    match splitOn sep rest with
    | [] => [[]]
    | h :: t => if c = sep then [] :: h :: t else (c :: h) :: t

/-- Python slice start/stop index clamping: a negative index counts from the
end (floored at 0), a nonnegative one is capped at the length. -/
def pyIdx (len : Nat) (a : Int) : Nat :=
  if a < 0 then (max 0 ((len : Int) + a)).toNat else min a.toNat len

/-- Python `s[a:]`. -/
def pySliceFrom (s : List Char) (a : Int) : List Char :=
  s.drop (pyIdx s.length a)

/-- Python `s[:b]`. -/
def pySliceTo (s : List Char) (b : Int) : List Char :=
  s.take (pyIdx s.length b)

/-- Python `s[a:b]`. -/
def pySlice (s : List Char) (a b : Int) : List Char :=
  (s.take (pyIdx s.length b)).drop (pyIdx s.length a)

/-- Decimal digits of a natural number, with structural fuel so that the
kernel can evaluate it (the fuel `n + 1` always suffices). -/
def natDigitsAux : Nat → Nat → List Char
  | 0, _ => []
  | fuel + 1, n =>
    if n < 10 then [Char.ofNat (48 + n)]
    else natDigitsAux fuel (n / 10) ++ [Char.ofNat (48 + n % 10)]

/-- Decimal digits of a natural number (`Nat` rendered base 10). -/
def natDigits (n : Nat) : List Char := natDigitsAux (n + 1) n

/-- Python `'%d' % v`: decimal rendering of an integer. -/
def intDecimal (v : Int) : List Char :=
  if v < 0 then '-' :: natDigits v.natAbs else natDigits v.toNat

/-- Python `'%0*d' % (w, v)` for a nonnegative width `w`: zero-padded
decimal, the sign (if any) counting toward the width. -/
def pyFmtZeroPad (w : Nat) (v : Int) : List Char :=
  if v < 0 then
    '-' :: (List.replicate (w - 1 - (natDigits v.natAbs).length) '0' ++ natDigits v.natAbs)
  else
    List.replicate (w - (natDigits v.toNat).length) '0' ++ natDigits v.toNat

/-- Python `'%0*d' % (w, v)` including negative widths (left-justified with
spaces, the `0` flag being ignored then, as in C's printf). -/
def pyFmtStar (w : Int) (v : Int) : List Char :=
  if w < 0 then intDecimal v ++ List.replicate ((-w).toNat - (intDecimal v).length) ' '
  else pyFmtZeroPad w.toNat v

/-- Python bitwise `&` on (possibly negative) integers, two's complement. -/
def pyAnd : Int → Int → Int
  | .ofNat a, .ofNat b => .ofNat (a &&& b)
  | .ofNat a, .negSucc b => .ofNat (a ^^^ (a &&& b))
  | .negSucc a, .ofNat b => .ofNat (b ^^^ (b &&& a))
  | .negSucc a, .negSucc b => .negSucc (a ||| b)

/-- Value of a hexadecimal digit character. -/
def hexVal (c : Char) : Option Nat :=
  if c.isDigit then some (c.toNat - 48)
  else if 'a' ≤ c ∧ c ≤ 'f' then some (c.toNat - 87)
  else if 'A' ≤ c ∧ c ≤ 'F' then some (c.toNat - 55)
  else none

/-- Nonempty digit string in the given base, as a natural number. -/
def digitsInBase (base : Nat) : List Char → Option Nat
  | [] => none
  | s => s.foldl (fun acc c =>
      acc.bind fun a => (hexVal c).bind fun d =>
        if d < base then some (base * a + d) else none) (some 0)

/-- Unsigned part of `pyIntBase`: an optional `0x`/`0X` (base 16) or
`0b`/`0B` (base 2) radix tag, then a nonempty run of digits of the base. -/
def pyIntBase0 (base : Nat) (s : List Char) : Option Nat :=
  match s with
  | '0' :: c :: r =>
    if base = 16 ∧ (c = 'x' ∨ c = 'X') then digitsInBase base r
    else if base = 2 ∧ (c = 'b' ∨ c = 'B') then digitsInBase base r
    else digitsInBase base s
  | _ => digitsInBase base s

/-- Python `int(s, base)` for the bases rene uses (2, 10, 16): an optional
sign, then the unsigned literal.  `none` models `ValueError`. -/
def pyIntBase (base : Nat) (s : List Char) : Option Int :=
  match s with
  | '-' :: r => (pyIntBase0 base r).map (fun n => -(n : Int))
  | '+' :: r => (pyIntBase0 base r).map (fun n => (n : Int))
  | _ => (pyIntBase0 base s).map (fun n => (n : Int))

/-- Python string comparison `<` (lexicographic on code points). -/
def pyStrLt : List Char → List Char → Bool
  | [], [] => false
  | [], _ :: _ => true
  | _ :: _, [] => false
  | a :: as, b :: bs => if a = b then pyStrLt as bs else decide (a < b)

/-- Python `int(s)` (base 10): optional sign then nonempty decimal digits.
`none` models `ValueError`. -/
def pyIntDec (s : List Char) : Option Int := pyIntBase 10 s

/-- Value of a nonempty all-decimal-digit string (no validity checking;
callers establish the chars are digits). -/
def digitsToNat (s : List Char) : Nat :=
  s.foldl (fun acc c => 10 * acc + (c.toNat - 48)) 0

/-- `scanint` (rene.py lines 264-273): decimal, hexadecimal (`0x`) or binary
(leading `0`) string to int, with a leading `-` handled for all radices.
`none` models the exceptions the Python can raise (`ValueError` from `int`,
`IndexError` on the bare string `"-"`). -/
def scanint (s : List Char) : Option Int :=
  if s = [] then some 0
  else
    let v := if s.head? = some '-' then s.tail else s
    match v.head? with
    | none => none
    | some c0 =>
      (if c0 ≠ '0' then pyIntBase 10 v
       else if v.length > 1 ∧ (v[1]?).map Char.toUpper = some 'X' then pyIntBase 16 v
       else pyIntBase 2 v).map
        (fun x => if s.head? = some '-' then -x else x)

/-- `bitmapChars` (rene.py lines 289-294): set bit `i` iff the `i`-th char
of the pattern occurs in the string. -/
def bitmapChars (s : List Char) (pat : List Char) : Nat :=
  (pat.enum).foldl (fun bm p => if s.contains p.2 then bm ||| (1 <<< p.1) else bm) 0

/-- `greedyext` (rene.py lines 303-309): split a name into root and the
greedy all-extensions suffix, per the regex `(\.*[^.]+)(\..+)*` matched at
the start.  A name that is empty or all dots does not match and yields
`([], [])`. -/
def greedyext (s : List Char) : List Char × List Char :=
  let d := s.takeWhile (· = '.')
  let rest := s.dropWhile (· = '.')
  if rest = [] then ([], [])
  else
    let nm := rest.takeWhile (· ≠ '.')
    let rem := rest.dropWhile (· ≠ '.')
    (d ++ nm, if 2 ≤ rem.length then rem else [])

/-- `nextName` (rene.py lines 341-365): increment/decrement a name.  The
last character selects the numeric, alphabetic or punctuation treatment.
`none` models Python's `IndexError` on the empty string and the implicit
`None` return when `str[offset:]` has no trailing digit run. -/
def nextName (s : List Char) (step : Int) (offset : Nat) : Option (List Char) :=
  match s.getLast? with
  | none => none
  | some c =>
    if c.isDigit then
      let t := s.drop offset
      let sn := (t.reverse.takeWhile Char.isDigit).reverse
      if sn = [] then none
      else
        let pre := t.take (t.length - sn.length)
        some (s.take offset ++ pre ++ pyFmtZeroPad sn.length ((digitsToNat sn : Int) + step))
    else if c.isAlpha then
      let lastChr : Char := if c.isLower then 'z' else 'Z'
      let firstChr : Char := if c.isLower then 'a' else 'A'
      let endv : Int := lastChr.toNat
      let nextord : Int := (c.toNat : Int) + step % 26
      some (s.dropLast ++
        (if step < 0 then
          (if nextord > endv then [Char.ofNat (nextord - 26).toNat]
           else [lastChr, Char.ofNat nextord.toNat])
         else
          (if nextord > endv then [firstChr, Char.ofNat (nextord - 26).toNat]
           else [Char.ofNat nextord.toNat])))
    else
      some (s ++ intDecimal step)

/-- A parameter of a rule working list: Python keeps either an `int` or a
string at each position (rene.py `prepRule`). -/
inductive PVal where
  | i (v : Int)
  | s (v : List Char)
deriving DecidableEq

/-- Default working list for the `S` (slice) rule: `[rvRule, 2, 2, 0]`. -/
def repRulesS : List PVal := [.s ['?'], .i 2, .i 2, .i 0]

/-- Default working list for the `B` (bump) rule: `[rvRule, 1, 0]`. -/
def repRulesB : List PVal := [.s ['?'], .i 1, .i 0]

/-- Default working list for the `I` (insert-increment) rule:
`[rvAdd, 0, 1, 1, 0, 0]` (start/step/width/mode/reload). -/
def repRulesI : List PVal := [.s [':'], .i 0, .i 1, .i 1, .i 0, .i 0]

/-- One rule parameter (rene.py lines 392-400): missing → default; blank
placeholder → default; numeric-looking (`v[0].isdigit() or v[0] == '-' and
v[1].isdigit()`) → `scanint`; otherwise the raw string.  `none` models the
`IndexError` on the bare `"-"` and `ValueError` out of `scanint`. -/
def prepParam (defv : PVal) : Option (List Char) → Option PVal
  | none => some defv
  | some [] => some defv
  | some (c :: rest) =>
    if c.isDigit then (scanint (c :: rest)).map PVal.i
    else if c = '-' then
      match rest with
      | [] => none
      | c1 :: _ =>
        if c1.isDigit then (scanint (c :: rest)).map PVal.i
        else some (.s (c :: rest))
    else some (.s (c :: rest))

/-- Parameters 1 .. (len defRule - 1) of a rule working list, from the
split command argument. -/
def buildParams : List PVal → List (List Char) → Option (List PVal)
  | [], _ => some []
  | d :: ds, [] => (buildParams ds []).map (d :: ·)
  | d :: ds, p :: ps => (prepParam d (some p)).bind fun x => (buildParams ds ps).map (x :: ·)

/-- The `I`-rule post-processing of `prepRule` (rene.py lines 408-410):
if the mode parameter is "truthy" it is converted from its `ER` mnemonic
string to a bitmap and the reload value (index 5) becomes a frozen copy of
the start value (index 1).  A nonzero numeric mode makes the Python call
`bitmapChars` on an `int`, an `AttributeError` crash, modelled `none`. -/
def applyIFixup (wlist : List PVal) : Option (List PVal) :=
  match wlist[4]? with
  | some (PVal.i m) => if m = 0 then some wlist else none
  | some (PVal.s m) =>
    match wlist[1]? with
    | some st => some ((wlist.set 4 (.i (bitmapChars m ['E', 'R']))).set 5 st)
    | none => none
  | none => some wlist

/-- `prepRule` (rene.py lines 384-412): convert a command-line rule
argument to a working list, filling missing/blank parameters from the
default rule and converting numeric-looking parameters with `scanint`.
Extra parameters beyond the default rule's length stay as raw strings.
`none` models every way the Python aborts (bad syntax, wrong variable
type, `ValueError`). -/
def prepRule (arg : List Char) (defRule : List PVal) (rvType : List Char) : Option (List PVal) :=
  match splitOn '/' arg with
  | [] => none
  | h :: params =>
    if h.length > 1 then none
    else if defRule.head? ≠ some (PVal.s rvType) then none
    else
      (buildParams (defRule.drop 1) params).bind fun ps =>
      let extras := (params.drop (defRule.length - 1)).map PVal.s
      let wlist := PVal.s h :: ps ++ extras
      if arg.head? = some 'I' then applyIFixup wlist else some wlist

/-- Indices of `I` rules in a rules list, mirroring how the command loop
(rene.py lines 1289-1292) builds the `irules` list: the index of every
rule whose identifying letter is `I`, in order. -/
def irulesFrom (i : Nat) : List (List PVal) → List Nat
  | [] => []
  | r :: rs =>
    (if r.head? = some (PVal.s ['I']) then [i] else []) ++ irulesFrom (i + 1) rs

/-- `irules` for a rules list. -/
def irulesOf (rs : List (List PVal)) : List Nat := irulesFrom 0 rs

/-- One directory-boundary reload of one rule index (rene.py lines
810-812): if the rule's mode (index 4, `I_MODE`) has the `R` bit
(`I_R = 2`), its start value (index 1, `I_START`) is overwritten with the
frozen reload value (index 5, `I_RELOAD`).  Out-of-range accesses (never
produced by the command parser) are modelled as no-ops. -/
def reloadStep (rs : List (List PVal)) (idx : Nat) : List (List PVal) :=
  match rs[idx]? with
  | some r =>
    match r[4]? with
    | some (PVal.i m) =>
      if pyAnd m 2 ≠ 0 then
        match r[5]? with
        | some rv => rs.set idx (r.set 1 rv)
        | none => rs
      else rs
    | _ => rs
  | none => rs

/-- The reload pass `procTree` performs before processing each directory
(rene.py lines 810-812), over the recorded `irules` indices. -/
def reloadRules (rs : List (List PVal)) (idxs : List Nat) : List (List PVal) :=
  idxs.foldl reloadStep rs

/-- Outcome of the per-file collision decision in `procDir`. -/
inductive CollisionOutcome where
  | keep
  | invokeAvoid
  | skipFile
  | stopBatch
deriving DecidableEq

/-- The collision decision of `procDir` (rene.py lines 710-721) as a
function of the relevant predicates: `existsOnDisk` is
`os.path.exists(newName)`, `sameFile` is `os.path.samefile(old, newName)`,
`inNewList` is `newName in newList`, and `caStop`/`caContinue` are the
`-XS`/`-XC` policy flags. -/
def collisionStep (existsOnDisk sameFile inNewList caStop caContinue : Bool) : CollisionOutcome :=
  if existsOnDisk && !sameFile then
    if caStop || caContinue then
      if caStop then .stopBatch else .skipFile
    else .invokeAvoid
  else if inNewList then .invokeAvoid
  else .keep

/-- Collision-avoidance configuration (rene.py globals, lines 187-192,
set by the `-X` option).  `caPunPos`: 0 = root prefix, 1 = root suffix,
2 = CA suffix. -/
structure CAConfig where
  caPun : List Char
  caPunPos : Nat
  caMerge : Bool
  caStart : List Char
deriving DecidableEq

/-- The default configuration (no `-X` option). -/
def defaultCA : CAConfig := ⟨[], 1, false, ['0']⟩

/-- The search loop of `avoid` (rene.py lines 450-473), `for i in
range(100)` with the internal `i > 9` limiter.  The loop is written with a
structural `fuel` argument equal to `100 - i` (so fuel 100 at entry with
`i = 0`); the fuel-exhausted case is the Python loop running off the end
of `range(100)` and falling through to the final `return`.  `nl` is the
global `newList`, `disk` the set of names for which `os.path.exists` is
true.  Returns the Python result (`none` modelling a crash when `nextName`
returns `None`) together with the list of candidate names tested, in
order. -/
def avoidLoop (nl disk : List (List Char)) (cfg : CAConfig) (ext : List Char)
    (caPunLen : Nat) : Nat → Nat → List Char → Nat →
    Option (List Char) × List (List Char)
  | 0, _, root, _ => (some (root ++ ext), [])
  | fuel + 1, rootLen, root, i =>
    let root1 := if caPunLen ≠ 0 then root ++ cfg.caPun else root
    let tname := root1 ++ ext
    if tname ∉ nl ∧ tname ∉ disk then (some tname, [tname])
    else if 9 < i then (some [], [tname])
    else
      let root2 := if caPunLen ≠ 0 then root1.take (root1.length - caPunLen) else root1
      match (if cfg.caMerge then nextName root2 1 0
             else if i = 0 then some (root2 ++ cfg.caStart)
             else nextName root2 1 rootLen) with
      | none => (none, [tname])
      | some root3 =>
        let rootLen2 := if ¬cfg.caMerge ∧ i = 0 then root2.length else rootLen
        let out := avoidLoop nl disk cfg ext caPunLen fuel rootLen2 root3 (i + 1)
        (out.1, tname :: out.2)

/-- `avoid` (rene.py lines 422-477): collision avoidance.  Splits the
proposed name with `greedyext`, installs the decoration string `caPun`
according to `caPunPos`, then runs the bounded search loop.  Returns the
Python return value (`some []` is the empty-string failure signal, `none`
a modelled crash) and the list of tested candidates. -/
def avoid (nl disk : List (List Char)) (cfg : CAConfig) (name : List Char) :
    Option (List Char) × List (List Char) :=
  let re := greedyext name
  let rp : List Char × Nat :=
    if cfg.caPun = [] then (re.1, 0)
    else if cfg.caPunPos = 0 then (cfg.caPun ++ re.1, 0)
    else if cfg.caPunPos = 1 then (re.1 ++ cfg.caPun, 0)
    else if cfg.caPunPos = 2 then (re.1, cfg.caPun.length)
    else (re.1, 0)
  avoidLoop nl disk cfg re.2 rp.2 100 0 rp.1 0

/-- Tokens of the regular expression `native` compiles a filter to
(rene.py lines 1154-1233): an escaped-or-plain literal character, the
non-greedy any-characters capture `(.*?)` from `*`, the single-character
capture `(.)` from a default `?`, and the greedy no-dot capture `([^.]*)`
appended for a filter ending in `*.`. -/
inductive Tok where
  | lit (c : Char)
  | star
  | one
  | noDotStar
deriving DecidableEq

/-- Literal-character comparison, with the `re.IGNORECASE` flag the filter
is compiled with by default (`ci = true`; `-FC` clears it). -/
def charEq (ci : Bool) (c x : Char) : Bool :=
  if ci then c.toLower = x.toLower else c = x

/-- All splits of `xs` in increasing prefix length: the order in which a
non-greedy `(.*?)` offers its captures to the backtracking match. -/
def splitsND (xs : List Char) : List (List Char × List Char) :=
  (List.range (xs.length + 1)).map fun n => (xs.take n, xs.drop n)

/-- The splits a greedy `([^.]*)` offers: dot-free prefixes, longest
first. -/
def noDotSplits (xs : List Char) : List (List Char × List Char) :=
  (List.range ((xs.takeWhile (· ≠ '.')).length + 1)).reverse.map
    fun n => (xs.take n, xs.drop n)

/-- Python's end anchor without `re.MULTILINE`: `$` matches at the very
end of the string, or just before a newline that is the last
character. -/
def atEnd (xs : List Char) : Bool :=
  decide (xs = [] ∨ xs = ['\n'])

/-- A run the dot metacharacter can consume: without `re.DOTALL`, `.`
matches every character except a newline. -/
def noNL (l : List Char) : Bool :=
  l.all (fun c => c != '\n')

/-- Backtracking match of a compiled filter against a whole name
(`re.match` with the trailing `$` the compiler always appends), returning
the captured groups in order — `none` when the name does not match.  The
split orders above make this compute exactly the group assignment Python's
engine produces for these patterns.  Newline semantics follow Python: the
`(.)` and `(.*?)` captures cannot consume a newline (no `re.DOTALL`),
while `([^.]*)` can, and the `$` anchor also matches just before one
trailing newline (no `re.MULTILINE`). -/
def reMatch (ci : Bool) : List Tok → List Char → Option (List (List Char))
  | [], xs => if atEnd xs then some [] else none
  | .lit _ :: _, [] => none
  | .lit c :: ts, x :: xs => if charEq ci c x then reMatch ci ts xs else none
  | .one :: _, [] => none
  | .one :: ts, x :: xs =>
    if x = '\n' then none else (reMatch ci ts xs).map ([x] :: ·)
  | .star :: ts, xs =>
    firstSome (fun pr =>
      if noNL pr.1 then (reMatch ci ts pr.2).map (pr.1 :: ·) else none)
      (splitsND xs)
  | .noDotStar :: ts, xs =>
    firstSome (fun pr => (reMatch ci ts pr.2).map (pr.1 :: ·)) (noDotSplits xs)

/-- Characters rejected from a native filter argument by `badChr`
(rene.py line 1117: `[<>|",\\;:/]`, with `*` and `?` permitted). -/
def badFilterChar (c : Char) : Bool :=
  c = '<' ∨ c = '>' ∨ c = '|' ∨ c = '"' ∨ c = ',' ∨ c = '\\' ∨ c = ';' ∨ c = ':' ∨ c = '/'

/-- Regex metacharacters that the compiler copies into the pattern
verbatim (rene.py line 1232 `filRe += c`).  The shallow embedding covers
only filters without them: such a filter's literals really are literals in
the compiled pattern.  `.`, `*` and `?` are excluded because the compiler
handles them itself. -/
def reMeta (c : Char) : Bool :=
  c = '+' ∨ c = '(' ∨ c = ')' ∨ c = '[' ∨ c = ']' ∨ c = '{' ∨ c = '}' ∨
  c = '^' ∨ c = '$'

/-- Adjacent `**` check (rene.py lines 1123-1125). -/
def hasAdjacentStars : List Char → Bool
  | '*' :: '*' :: _ => true
  | _ :: rest => hasAdjacentStars rest
  | [] => false

/-- The token the per-character loop emits (rene.py lines 1164-1232, with
no filter-extension clauses): `*` → `(.*?)`, `?` → `(.)`, anything else a
literal (`.` is emitted escaped, hence also a literal). -/
def tokOfChar (c : Char) : Tok :=
  if c = '*' then .star else if c = '?' then .one else .lit c

/-- Compilation of a native filter argument that has no extension clauses
(rene.py lines 1117-1136 and 1154-1233): the illegal-character and `**`
checks, the `noDotName` flag (the original argument starts with `*.`), the
trailing `*.` → `([^.]*)` and trailing `.` → dropped conveniences, and the
per-character translation.  Returns the token list and the `noDotName`
flag; `none` models the Python exiting on a bad filter, and is also
returned for the filters (with regex metacharacters) that the token
embedding does not cover. -/
def compileNative (filArg : List Char) : Option (List Tok × Bool) :=
  if filArg.any (fun c => badFilterChar c ∨ reMeta c) then none
  else if hasAdjacentStars filArg then none
  else
    let noDot := filArg.take 2 = ['*', '.']
    let bf : List Char × List Tok :=
      if 2 ≤ filArg.length ∧ filArg.drop (filArg.length - 2) = ['*', '.'] then
        (filArg.take (filArg.length - 2), [.noDotStar])
      else if filArg.getLast? = some '.' then (filArg.take (filArg.length - 1), [])
      else (filArg, [])
    some (bf.1.map tokOfChar ++ bf.2, noDot)

/-- All suffixes of a char list, longest first (ending with `[]`). -/
def listSuffixes : List Char → List (List Char)
  | [] => [[]]
  | x :: t => (x :: t) :: listSuffixes t

/-- The naive structural glob matcher the specification describes:
literals verbatim, `*` any run of characters, `?` exactly one character,
anchored at both ends.  This is the spec-side definition for the
refinement claim about filter semantics; it is compared against the
compiled-pattern matcher. -/
def globMatch (ci : Bool) : List Char → List Char → Bool
  | [], xs => xs.isEmpty
  | p :: ps, xs =>
    if p = '*' then (listSuffixes xs).any (fun s => globMatch ci ps s)
    else if p = '?' then
      match xs with
      | [] => false
      | _ :: xs2 => globMatch ci ps xs2
    else
      match xs with
      | [] => false
      | x :: xs2 => charEq ci p x && globMatch ci ps xs2

/-- A semantic filter rule (rene.py lines 1213-1229): numeric range
`#lo-hi` (`FX_NRANGE`) or lexical range `lo-hi` (`FX_ARANGE`). -/
inductive SemKind where
  | nrange (lo hi : Int)
  | arange (lo hi : List Char)
deriving DecidableEq

/-- One semantic filter check of `native` (rene.py lines 501-517): the
value is group `gidx` of the match (1-based); if it contains a `.` only
the part before the first dot is compared. -/
def semCheck (gs : List (List Char)) (p : Nat × SemKind) : Bool :=
  let v0 := ((gs[p.1 - 1]?).getD []).takeWhile (· ≠ '.')
  match p.2 with
  | .arange lo hi => !(pyStrLt v0 lo || pyStrLt hi v0)
  | .nrange lo hi =>
    match pyIntDec v0 with
    | none => false
    | some n => !(decide (n < lo) || decide (n > hi))

/-- The filter stage of `native` (rene.py lines 497-517): the compiled
pattern must match, a leading-dot name is rejected when `noDotName` is
set, and every semantic rule must pass.  Returns the captured groups of a
selected name.  (For an empty name with `noDotName` set the Python indexes
`old[0]` and crashes; theorems about this function restrict to nonempty
names.) -/
def nativeFilterPass (ci : Bool) (tk : List Tok) (nd : Bool)
    (fargx : List (Nat × SemKind)) (old : List Char) : Option (List (List Char)) :=
  match reMatch ci tk old with
  | none => none
  | some gs =>
    if nd ∧ old.head? = some '.' then none
    else if fargx.all (semCheck gs) then some gs
    else none

/-- A token of the replacement list `lrep` (rene.py line 1259): a literal
run, or one of the four variables `:` (`rvAdd`), `?` (`rvRule`),
`/` (`rvSkip`), `*` (`rvCopy`). -/
inductive RepTok where
  | lit (s : List Char)
  | add
  | ruleTok
  | skip
  | copy
deriving DecidableEq

/-- Split a replacement argument into `lrep` exactly as
`re.split(r'([:?/*])', aRep)` with empty strings removed does. -/
def lrepOf : List Char → List RepTok
  | [] => []
  | c :: rest =>
    if c = ':' then .add :: lrepOf rest
    else if c = '?' then .ruleTok :: lrepOf rest
    else if c = '/' then .skip :: lrepOf rest
    else if c = '*' then .copy :: lrepOf rest
    else
      match lrepOf rest with
      | .lit s :: t => .lit (c :: s) :: t
      | t => .lit [c] :: t

/-- The floater-consuming variables (`consumers = "?/*"`, rene.py
line 221). -/
def isConsumer : RepTok → Bool
  | .ruleTok => true
  | .skip => true
  | .copy => true
  | _ => false

/-- Index of the last consumer in `lrep` (`maxConsumer`, rene.py lines
1264-1266; referenced only when a consumer exists, so the default 0 is
never observed). -/
def lastConsumerIdx (lrep : List RepTok) : Nat :=
  lrep.enum.foldl (fun a p => if isConsumer p.2 then p.1 else a) 0

/-- Placement of an insert-increment contribution (rene.py lines 594-598):
mode bit `I_E` inserts at the token position, otherwise the name so far is
re-split and the insertion goes before the extension. -/
def incFinish (mode : Int) (incName : List Char) (acc : List Char) : List Char :=
  if pyAnd mode 1 ≠ 0 then acc ++ incName
  else (greedyext acc).1 ++ incName ++ (greedyext acc).2

/-- One rule dispatch of `native` (rene.py lines 559-598), on the rule
working list at the current rule cursor.  `srcv` is the Python local
variable `src` (set by the most recent consumer; `none` = never assigned,
so a use is a `NameError`).  Returns the extended name and the (possibly
stepped, for `I`) rule; `none` models the `TypeError`s/`IndexError`s the
Python raises on mistyped parameters and `nextName` returning `None`. -/
def dispatch (r : List PVal) (srcv : Option (List Char)) (acc : List Char) :
    Option (List Char × List PVal) :=
  if r.head? = some (.s ['S']) then
    match srcv, r[1]?, r[2]?, r[3]? with
    | some src, some (PVal.i lead), some (PVal.i trail), some (PVal.i mode) =>
      if mode = 0 then some (acc ++ pySliceTo src lead ++ pySliceFrom src (-trail), r)
      else some (acc ++ pySlice src lead trail, r)
    | _, _, _, _ => none
  else if r.head? = some (.s ['B']) then
    match srcv, r[1]?, r[2]? with
    | some src, some (PVal.i step), some (PVal.i mode) =>
      match (greedyext src).1.getLast? with
      | none => none
      | some c =>
        let bsel : Int := if c.isAlpha then 1 else if c.isDigit then 2 else 4
        if pyAnd mode bsel ≠ 0 then
          if pyAnd mode (bsel * 16) = 0 then some (acc ++ src, r)
          else some (acc ++ (greedyext src).2, r)
        else
          match nextName (greedyext src).1 step 0 with
          | none => none
          | some nn => some (acc ++ nn ++ (greedyext src).2, r)
    | _, _, _ => none
  else if r.head? = some (.s ['I']) then
    match r[1]?, r[2]?, r[3]?, r[4]? with
    | some st, some (PVal.i step), some wd, some (PVal.i mode) =>
      match st with
      | .i n =>
        match wd with
        | .i w => some (incFinish mode (pyFmtStar w n) acc, r.set 1 (.i (n + step)))
        | .s _ => none
      | .s sa =>
        match nextName sa step 0 with
        | none => none
        | some sa2 => some (incFinish mode sa acc, r.set 1 (.s sa2))
    | _, _, _, _ => none
  else some (acc, r)

/-- The replacement walk of `native` (rene.py lines 529-601).  `floaters`
is the (ordered) group list, `maxCons` the index of the last consumer
token, `idx`/`fIdx`/`ridx` the token, floater and rule cursors, `srcv`
the Python local `src`, `rules` the (mutable, threaded) rules list and
`acc` the name built so far.  Returns the synthesized name (`none` for a
modelled crash), the final rules list, and the dispatch trace: one
`(token index, rule index, rule working list used)` triple per rule
dispatch, in order. -/
def synthWalk (floaters : List (List Char)) (maxCons : Nat) :
    List RepTok → Nat → Nat → Nat → Option (List Char) → List (List PVal) → List Char →
    Option (List Char) × List (List PVal) × List (Nat × Nat × List PVal)
  | [], _, _, _, _, rules, acc => (some acc, rules, [])
  | .lit s :: rest, idx, fIdx, ridx, srcv, rules, acc =>
    synthWalk floaters maxCons rest (idx + 1) fIdx ridx srcv rules (acc ++ s)
  | .copy :: rest, idx, fIdx, ridx, srcv, rules, acc =>
    if floaters.length ≤ fIdx then
      synthWalk floaters maxCons rest (idx + 1) fIdx ridx srcv rules acc
    else
      let src := if idx = maxCons ∧ fIdx + 1 < floaters.length
                 then (floaters.drop fIdx).flatten
                 else (floaters[fIdx]?).getD []
      synthWalk floaters maxCons rest (idx + 1) (fIdx + 1) ridx (some src) rules (acc ++ src)
  | .skip :: rest, idx, fIdx, ridx, srcv, rules, acc =>
    if floaters.length ≤ fIdx then
      synthWalk floaters maxCons rest (idx + 1) fIdx ridx srcv rules acc
    else
      let src := if idx = maxCons ∧ fIdx + 1 < floaters.length
                 then (floaters.drop fIdx).flatten
                 else (floaters[fIdx]?).getD []
      synthWalk floaters maxCons rest (idx + 1) (fIdx + 1) ridx (some src) rules acc
  | .ruleTok :: rest, idx, fIdx, ridx, srcv, rules, acc =>
    if floaters.length ≤ fIdx then
      synthWalk floaters maxCons rest (idx + 1) fIdx ridx srcv rules acc
    else
      let src := if idx = maxCons ∧ fIdx + 1 < floaters.length
                 then (floaters.drop fIdx).flatten
                 else (floaters[fIdx]?).getD []
      if src = [] then
        synthWalk floaters maxCons rest (idx + 1) (fIdx + 1) ridx (some src) rules acc
      else
        match rules[ridx]? with
        | none => (none, rules, [])
        | some r =>
          match dispatch r (some src) acc with
          | none => (none, rules, [(idx, ridx, r)])
          | some p =>
            let out := synthWalk floaters maxCons rest (idx + 1) (fIdx + 1) (ridx + 1)
              (some src) (rules.set ridx p.2) p.1
            (out.1, out.2.1, (idx, ridx, r) :: out.2.2)
  | .add :: rest, idx, fIdx, ridx, srcv, rules, acc =>
    match rules[ridx]? with
    | none => (none, rules, [])
    | some r =>
      match dispatch r srcv acc with
      | none => (none, rules, [(idx, ridx, r)])
      | some p =>
        let out := synthWalk floaters maxCons rest (idx + 1) fIdx (ridx + 1)
          srcv (rules.set ridx p.2) p.1
        (out.1, out.2.1, (idx, ridx, r) :: out.2.2)

/-- `native` (rene.py lines 497-601) for a compiled filter, with the
floater order unpermuted (no `-O` option): the filter stage followed by
the replacement walk.  Returns the new name (`some []` is the Python
return `""`, i.e. the name was not selected or the replacement emitted
nothing), the threaded rules list, and the dispatch trace. -/
def nativeRun (ci : Bool) (tk : List Tok) (nd : Bool) (fargx : List (Nat × SemKind))
    (lrep : List RepTok) (rules : List (List PVal)) (old : List Char) :
    Option (List Char) × List (List PVal) × List (Nat × Nat × List PVal) :=
  match nativeFilterPass ci tk nd fargx old with
  | none => (some [], rules, [])
  | some gs => synthWalk gs (lastConsumerIdx lrep) lrep 0 0 0 none rules []

/-- The whole extension-free native pipeline: compile the filter with the
default case-insensitive flag, split the replacement, and run `native` on
one name. -/
def nativePipeline (filt repl : List Char) (rules : List (List PVal)) (old : List Char) :
    Option (List Char) :=
  match compileNative filt with
  | none => none
  | some tn => (nativeRun true tn.1 tn.2 [] (lrepOf repl) rules old).1

/-- C2: Increment Primitive examples: `nextName("Y",1)=="Z"`,
`nextName("Z",1)=="AA"`, `nextName("z",1)=="aa"`, `nextName("A",-1)=="ZZ"`,
`nextName("a",-1)=="zz"`, `nextName("007",1)=="008"`,
`nextName("099",1,0)=="100"` (the digit-field width may grow); and for any
string ending in a letter, the result is the original minus its last
character plus a one- or two-character suffix, so carry/borrow never
touches characters to the left of the single last original character. -/
theorem nextName_examples_and_alpha_locality :
    nextName ['Y'] 1 0 = some ['Z'] ∧
    nextName ['Z'] 1 0 = some ['A', 'A'] ∧
    nextName ['z'] 1 0 = some ['a', 'a'] ∧
    nextName ['A'] (-1) 0 = some ['Z', 'Z'] ∧
    nextName ['a'] (-1) 0 = some ['z', 'z'] ∧
    nextName ['0', '0', '7'] 1 0 = some ['0', '0', '8'] ∧
    nextName ['0', '9', '9'] 1 0 = some ['1', '0', '0'] ∧
    (∀ (s : List Char) (step : Int) (offset : Nat) (c : Char),
      s.getLast? = some c → c.isDigit = false → c.isAlpha = true →
      ∃ suf : List Char, 1 ≤ suf.length ∧ suf.length ≤ 2 ∧
        nextName s step offset = some (s.dropLast ++ suf)) := by
  refine ⟨by decide, by decide, by decide, by decide, by decide, by decide, by decide, ?_⟩
  intro s step offset c hc hd ha
  unfold nextName
  rw [hc]
  simp only [hd, ha]
  refine ⟨_, ?_, ?_, rfl⟩ <;> (split <;> split <;> split <;> simp)

/-- Witness for C2: the theorem applied to the single letter `B` with
step `-1`. -/
theorem nextName_examples_and_alpha_locality_w :
    ∃ suf : List Char, 1 ≤ suf.length ∧ suf.length ≤ 2 ∧
      nextName ['B'] (-1) 0 = some (List.dropLast ['B'] ++ suf) :=
  nextName_examples_and_alpha_locality.2.2.2.2.2.2.2 ['B'] (-1) 0 'B'
    (by decide) (by decide) (by decide)

/-- C8 (counterexample): on the empty string, `nextName` does not append
the decimal step; the Python raises `IndexError` on `str[-1]` (modelled
`none`). -/
theorem nextName_empty_counterexample :
    nextName [] 1 0 = none ∧
    nextName [] 1 0 ≠ some (([] : List Char) ++ intDecimal 1) := by decide

/-- C8 (amended): for every nonempty string whose last character is
neither a digit nor a letter, `nextName(str, step)` returns the string
with the literal decimal rendering of the step appended as a new
suffix. -/
theorem nextName_punct_amended :
    ∀ (s : List Char) (step : Int) (c : Char),
      s.getLast? = some c → c.isDigit = false → c.isAlpha = false →
      nextName s step 0 = some (s ++ intDecimal step) := by
  intro s step c hc hd ha
  unfold nextName
  rw [hc]
  simp only [hd, ha]
  simp

/-- Witness for amended C8 at the string `a-` with step 7. -/
theorem nextName_punct_amended_w :
    nextName ['a', '-'] 7 0 = some (['a', '-'] ++ intDecimal 7) :=
  nextName_punct_amended ['a', '-'] 7 '-' (by decide) (by decide) (by decide)

/-- C9: the stop/continue collision policies are consulted only when the
proposed name collides with a different existing file on disk; an
in-batch (`newList`) collision invokes the avoidance search regardless of
the flags. -/
theorem collision_policy_scope :
    ∀ e sf nl st ct : Bool,
      (¬(e = true ∧ sf = false) → nl = true →
        collisionStep e sf nl st ct = CollisionOutcome.invokeAvoid) ∧
      (¬(e = true ∧ sf = false) →
        collisionStep e sf nl st ct = collisionStep e sf nl false false) := by decide

/-- Witness for C9: a purely in-batch collision invokes avoidance even
with both stop and continue set. -/
theorem collision_policy_scope_w :
    collisionStep false false true true true = CollisionOutcome.invokeAvoid :=
  (collision_policy_scope false false true true true).1 (by decide) rfl

/-- Evaluation of `scanint` on a string beginning `0` with at least two
characters: radix dispatch on the second character. -/
theorem scanint_zero2 (c : Char) (u : List Char) :
    scanint ('0' :: c :: u) =
      if c.toUpper = 'X' then pyIntBase 16 ('0' :: c :: u) else pyIntBase 2 ('0' :: c :: u) := by
  simp only [scanint]
  simp only [List.head?, List.tail, List.get?]
  simp

/-- C10: numeric rule parameters are radix-sensitive at the DSL surface —
a parameter beginning with `0` and longer than one character is parsed as
hexadecimal when its second character is `x`/`X` and as binary otherwise,
so `"010"` yields 2, `"0"` yields 0, and a leading-zero parameter with a
digit above 1 such as `"08"` raises `ValueError` during command parsing
(modelled: `scanint` returns `none` and `prepRule` propagates the
error). -/
theorem scanint_radix_surface :
    scanint ['0', '1', '0'] = some 2 ∧
    scanint ['0'] = some 0 ∧
    scanint ['0', '8'] = none ∧
    prepRule ['B', '/', '0', '8'] repRulesB ['?'] = none ∧
    (∀ (s : List Char) (c : Char), s.head? = some '0' → s[1]? = some c →
      (c.toUpper = 'X' → scanint s = pyIntBase 16 s) ∧
      (c.toUpper ≠ 'X' → scanint s = pyIntBase 2 s)) := by
  refine ⟨by decide, by decide, by decide, by decide, ?_⟩
  intro s c h0 h1
  cases s with
  | nil => simp at h0
  | cons a rest =>
    have ha : a = '0' := by simpa using h0
    subst ha
    cases rest with
    | nil => simp at h1
    | cons b u =>
      have hb : b = c := by simpa using h1
      subst hb
      rw [scanint_zero2]
      constructor
      · intro hx
        simp [hx]
      · intro hx
        simp [hx]

/-- Witness for C10: the hexadecimal branch evaluated at `0x10`. -/
theorem scanint_radix_surface_w :
    scanint ['0', 'x', '1', '0'] = pyIntBase 16 ['0', 'x', '1', '0'] :=
  ((scanint_radix_surface.2.2.2.2 ['0', 'x', '1', '0'] 'x' rfl rfl).1 (by decide))

/-- C1: end-to-end native pipeline: with filter `08*-0*` and replacement
`/hap*`, every name `08493357-00N.tif` (N = 1..5) is renamed to
`hap0N.tif`: the match captures the floaters (`493357`, `0N.tif`), the
`/` token discards the first, the literal `hap` is emitted, and the `*`
token copies the final floater verbatim. -/
theorem native_endtoend_patents :
    lrepOf "/hap*".data = [RepTok.skip, RepTok.lit "hap".data, RepTok.copy] ∧
    (compileNative "08*-0*".data).map
      (fun tn => reMatch true tn.1 "08493357-001.tif".data) =
      some (some ["493357".data, "01.tif".data]) ∧
    (compileNative "08*-0*".data).map
      (fun tn => reMatch true tn.1 "08493357-005.tif".data) =
      some (some ["493357".data, "05.tif".data]) ∧
    nativePipeline "08*-0*".data "/hap*".data [] "08493357-001.tif".data = some "hap01.tif".data ∧
    nativePipeline "08*-0*".data "/hap*".data [] "08493357-002.tif".data = some "hap02.tif".data ∧
    nativePipeline "08*-0*".data "/hap*".data [] "08493357-003.tif".data = some "hap03.tif".data ∧
    nativePipeline "08*-0*".data "/hap*".data [] "08493357-004.tif".data = some "hap04.tif".data ∧
    nativePipeline "08*-0*".data "/hap*".data [] "08493357-005.tif".data = some "hap05.tif".data := by
  decide

/-- The per-entry effect of `reloadStep` on the entry it targets. -/
def applyReload (r : List PVal) : List PVal :=
  match r[4]? with
  | some (PVal.i m) =>
    if pyAnd m 2 ≠ 0 then
      match r[5]? with
      | some rv => r.set 1 rv
      | none => r
    else r
  | _ => r

theorem reloadStep_get (rs : List (List PVal)) (idx j : Nat) :
    (reloadStep rs idx)[j]? =
      if j = idx then (rs[j]?).map applyReload else rs[j]? := by
  by_cases hj : j = idx
  · subst hj
    rw [if_pos rfl]
    unfold reloadStep
    cases hr : rs[j]? with
    | none => simpa using hr
    | some r =>
      have hlt : j < rs.length := (List.getElem?_eq_some_iff.mp hr).1
      unfold applyReload
      cases hr4 : r[4]? with
      | none => simp [hr, hr4]
      | some p =>
        cases p with
        | s v => simp [hr, hr4]
        | i m =>
          by_cases hm : pyAnd m 2 ≠ 0
          · cases hr5 : r[5]? with
            | none => simp [hr, hr4, hr5, hm]
            | some rv => simp [hr, hr4, hr5, hm, List.getElem?_set_self hlt]
          · push_neg at hm
            simp [hr, hr4, hm]
  · rw [if_neg hj]
    unfold reloadStep
    cases hr : rs[idx]? with
    | none => simp [hr]
    | some r =>
      cases hr4 : r[4]? with
      | none => simp [hr, hr4]
      | some p =>
        cases p with
        | s v => simp [hr, hr4]
        | i m =>
          by_cases hm : pyAnd m 2 ≠ 0
          · cases hr5 : r[5]? with
            | none => simp [hr, hr4, hr5, hm]
            | some rv =>
              simp only [hr, hr4, hr5]
              rw [if_pos hm]
              exact List.getElem?_set_ne (fun h => hj h.symm)
          · push_neg at hm
            simp [hr, hr4, hm]

theorem applyReload_idem (r : List PVal) : applyReload (applyReload r) = applyReload r := by
  unfold applyReload
  cases hr4 : r[4]? with
  | none => simp [hr4]
  | some p =>
    cases p with
    | s v => simp [hr4]
    | i m =>
      by_cases hm : pyAnd m 2 ≠ 0
      · cases hr5 : r[5]? with
        | none => simp [hr4, hm, hr5]
        | some rv =>
          have h4 : (r.set 1 rv)[4]? = r[4]? := List.getElem?_set_ne (by omega)
          have h5 : (r.set 1 rv)[5]? = r[5]? := List.getElem?_set_ne (by omega)
          simp only [hr4, hr5, hm, ne_eq, not_false_iff, reduceIte, h4, h5]
          exact List.set_set rv rv r 1
      · simp [hr4, hm]

theorem reloadRules_get (idxs : List Nat) (rs : List (List PVal)) (j : Nat) :
    (reloadRules rs idxs)[j]? =
      if j ∈ idxs then (rs[j]?).map applyReload else rs[j]? := by
  induction idxs generalizing rs with
  | nil => simp [reloadRules]
  | cons idx idxs ih =>
    have hstep : reloadRules rs (idx :: idxs) = reloadRules (reloadStep rs idx) idxs := rfl
    rw [hstep, ih, reloadStep_get]
    by_cases hj : j = idx
    · subst hj
      by_cases hmem : j ∈ idxs
      · simp only [hmem, if_pos rfl, reduceIte, List.mem_cons, true_or, if_true]
        cases rs[j]? with
        | none => rfl
        | some r => simp [applyReload_idem]
      · simp [hmem]
    · by_cases hmem : j ∈ idxs
      · simp [hj, hmem]
      · have hnc : j ∉ idx :: idxs := by
          simp [List.mem_cons, hj, hmem]
        simp [hj, hmem, hnc]

theorem mem_irulesFrom_le {rs : List (List PVal)} {k j : Nat} :
    j ∈ irulesFrom k rs → k ≤ j := by
  induction rs generalizing k with
  | nil => intro h; simp [irulesFrom] at h
  | cons r rs ih =>
    intro h
    simp only [irulesFrom, List.mem_append] at h
    rcases h with h | h
    · split at h <;> simp at h
      omega
    · have := ih h
      omega

theorem mem_irulesFrom {rs : List (List PVal)} {k j : Nat} :
    j ∈ irulesFrom k rs ↔
      (k ≤ j ∧ ∃ r, rs[j - k]? = some r ∧ r.head? = some (PVal.s ['I'])) := by
  induction rs generalizing k with
  | nil => simp [irulesFrom]
  | cons r rs ih =>
    simp only [irulesFrom, List.mem_append]
    constructor
    · intro h
      rcases h with h | h
      · split at h <;> simp at h
        subst h
        rename_i hI
        exact ⟨le_refl _, r, by simp, hI⟩
      · have hk1 := mem_irulesFrom_le h
        rcases (ih.mp h) with ⟨hle, r2, hget, hI⟩
        refine ⟨by omega, r2, ?_, hI⟩
        have heq : j - k = (j - (k + 1)) + 1 := by omega
        rw [heq]
        simpa using hget
    · rintro ⟨hle, r2, hget, hI⟩
      by_cases hjk : j = k
      · subst hjk
        simp at hget
        left
        simp [hget, hI]
      · right
        apply ih.mpr
        refine ⟨by omega, r2, ?_, hI⟩
        have heq : j - k = (j - (k + 1)) + 1 := by omega
        rw [heq] at hget
        simpa using hget

/-- C5: before each directory is processed during recursion, every
Insert-Increment rule whose mode (index `I_MODE` = 4) has the `R` bit
(`I_R` = 2) has its current start value (index `I_START` = 1) reset to
the frozen reload copy (index `I_RELOAD` = 5), while every `I` rule
without the bit is left unchanged; and `prepRule` freezes the reload copy
from the initial start value (shown on the concrete rule `I/5/1/1/R`). -/
theorem insertinc_reload_boundary :
    prepRule "I/5/1/1/R".data repRulesI [':'] =
      some [.s ['I'], .i 5, .i 1, .i 1, .i 2, .i 5] ∧
    (∀ (rs : List (List PVal)) (j : Nat) (r : List PVal) (m : Int) (rv : PVal),
      rs[j]? = some r → r.head? = some (PVal.s ['I']) →
      r[4]? = some (.i m) → r[5]? = some rv →
      ((pyAnd m 2 ≠ 0 →
          (reloadRules rs (irulesOf rs))[j]? = some (r.set 1 rv)) ∧
       (pyAnd m 2 = 0 →
          (reloadRules rs (irulesOf rs))[j]? = some r))) := by
  refine ⟨by decide, ?_⟩
  intro rs j r m rv hget hI h4 h5
  have hmem : j ∈ irulesOf rs := by
    unfold irulesOf
    exact mem_irulesFrom.mpr ⟨Nat.zero_le _, r, by simpa using hget, hI⟩
  have hrr := reloadRules_get (irulesOf rs) rs j
  rw [if_pos hmem, hget] at hrr
  constructor
  · intro hm
    rw [hrr]
    unfold applyReload
    simp [h4, h5, hm]
  · intro hm
    rw [hrr]
    unfold applyReload
    simp [h4, hm]

/-- Witness for C5: a one-rule list with the `R` bit set is reset, via
the theorem. -/
theorem insertinc_reload_boundary_w :
    (reloadRules [[PVal.s ['I'], .i 7, .i 1, .i 1, .i 2, .i 5]]
      (irulesOf [[PVal.s ['I'], .i 7, .i 1, .i 1, .i 2, .i 5]]))[0]? =
      some ([PVal.s ['I'], .i 7, .i 1, .i 1, .i 2, .i 5].set 1 (.i 5)) :=
  ((insertinc_reload_boundary.2 [[PVal.s ['I'], .i 7, .i 1, .i 1, .i 2, .i 5]] 0
      [PVal.s ['I'], .i 7, .i 1, .i 1, .i 2, .i 5] 2 (.i 5)
      rfl rfl rfl rfl).1 (by decide))

theorem synthWalk_trace_inv (floaters : List (List Char)) (maxCons : Nat)
    (rules0 : List (List PVal)) :
    ∀ (rest : List RepTok) (idx fIdx ridx : Nat) (srcv : Option (List Char))
      (rulesCur : List (List PVal)) (acc : List Char),
      (∀ j, ridx ≤ j → rulesCur[j]? = rules0[j]?) →
      (∀ k e,
        ((synthWalk floaters maxCons rest idx fIdx ridx srcv rulesCur acc).2.2)[k]? = some e →
          e.2.1 = ridx + k ∧ rules0[ridx + k]? = some e.2.2 ∧ idx ≤ e.1) ∧
      List.Chain' (fun a b => a.1 < b.1)
        (synthWalk floaters maxCons rest idx fIdx ridx srcv rulesCur acc).2.2 := by
  intro rest
  induction rest with
  | nil =>
    intro idx fIdx ridx srcv rulesCur acc _
    simp [synthWalk]
  | cons tok rest ih =>
    intro idx fIdx ridx srcv rulesCur acc hAgree
    have weak : ∀ (fIdx2 : Nat) (srcv2 : Option (List Char)) (acc2 : List Char),
        (∀ k e,
          ((synthWalk floaters maxCons rest (idx + 1) fIdx2 ridx srcv2 rulesCur acc2).2.2)[k]? = some e →
            e.2.1 = ridx + k ∧ rules0[ridx + k]? = some e.2.2 ∧ idx ≤ e.1) ∧
        List.Chain' (fun a b => a.1 < b.1)
          (synthWalk floaters maxCons rest (idx + 1) fIdx2 ridx srcv2 rulesCur acc2).2.2 := by
      intro fIdx2 srcv2 acc2
      have h := ih (idx + 1) fIdx2 ridx srcv2 rulesCur acc2 hAgree
      exact ⟨fun k e hk => ⟨(h.1 k e hk).1, (h.1 k e hk).2.1,
        by have := (h.1 k e hk).2.2; omega⟩, h.2⟩
    have single : ∀ (r : List PVal), rulesCur[ridx]? = some r →
        (∀ k e, ([(idx, ridx, r)] : List (Nat × Nat × List PVal))[k]? = some e →
          e.2.1 = ridx + k ∧ rules0[ridx + k]? = some e.2.2 ∧ idx ≤ e.1) ∧
        List.Chain' (fun a b => a.1 < b.1) [(idx, ridx, r)] := by
      intro r hr
      constructor
      · intro k e hk
        match k, hk with
        | 0, hk =>
          simp only [List.getElem?_cons_zero, Option.some.injEq] at hk
          subst hk
          refine ⟨rfl, ?_, le_refl _⟩
          rw [Nat.add_zero, ← hAgree ridx (le_refl _)]
          exact hr
        | k + 1, hk =>
          simp at hk
      · exact List.chain'_singleton _
    have consStep : ∀ (r r2 : List PVal) (fIdx2 : Nat)
        (srcv2 : Option (List Char)) (acc2 : List Char),
        rulesCur[ridx]? = some r →
        ((∀ k e,
          ((idx, ridx, r) ::
            (synthWalk floaters maxCons rest (idx + 1) fIdx2 (ridx + 1) srcv2
              (rulesCur.set ridx r2) acc2).2.2)[k]? = some e →
            e.2.1 = ridx + k ∧ rules0[ridx + k]? = some e.2.2 ∧ idx ≤ e.1) ∧
         List.Chain' (fun a b => a.1 < b.1)
          ((idx, ridx, r) ::
            (synthWalk floaters maxCons rest (idx + 1) fIdx2 (ridx + 1) srcv2
              (rulesCur.set ridx r2) acc2).2.2)) := by
      intro r r2 fIdx2 srcv2 acc2 hr
      have hAgree2 : ∀ j, ridx + 1 ≤ j → (rulesCur.set ridx r2)[j]? = rules0[j]? := by
        intro j hj
        rw [List.getElem?_set_ne (by omega)]
        exact hAgree j (by omega)
      have h := ih (idx + 1) fIdx2 (ridx + 1) srcv2 (rulesCur.set ridx r2) acc2 hAgree2
      constructor
      · intro k e hk
        match k, hk with
        | 0, hk =>
          simp only [List.getElem?_cons_zero, Option.some.injEq] at hk
          subst hk
          refine ⟨rfl, ?_, le_refl _⟩
          rw [Nat.add_zero, ← hAgree ridx (le_refl _)]
          exact hr
        | k + 1, hk =>
          simp only [List.getElem?_cons_succ] at hk
          have h2 := h.1 k e hk
          refine ⟨by omega, ?_, by have := h2.2.2; omega⟩
          rw [show ridx + (k + 1) = ridx + 1 + k by omega]
          exact h2.2.1
      · rw [List.chain'_cons']
        refine ⟨?_, h.2⟩
        intro y hy
        have hy0 : ((synthWalk floaters maxCons rest (idx + 1) fIdx2 (ridx + 1) srcv2
            (rulesCur.set ridx r2) acc2).2.2)[0]? = some y := by
          rw [← List.head?_eq_getElem?]
          exact Option.mem_def.mp hy
        have := (h.1 0 y hy0).2.2
        omega
    cases tok with
    | lit s =>
      simp only [synthWalk]
      exact weak fIdx srcv (acc ++ s)
    | copy =>
      simp only [synthWalk]
      split
      · exact weak fIdx srcv acc
      · exact weak (fIdx + 1) _ _
    | skip =>
      simp only [synthWalk]
      split
      · exact weak fIdx srcv acc
      · exact weak (fIdx + 1) _ acc
    | ruleTok =>
      simp only [synthWalk]
      split
      · exact weak fIdx srcv acc
      · split
        all_goals
          split
          · exact weak (fIdx + 1) _ acc
          · split
            · simp
            · rename_i r hr
              split
              · exact single r hr
              · rename_i p hp
                exact consStep r p.2 (fIdx + 1) _ _ hr
    | add =>
      simp only [synthWalk]
      split
      · simp
      · rename_i r hr
        split
        · exact single r hr
        · rename_i p hp
          exact consStep r p.2 fIdx srcv p.1 hr


/-- C4: rule/token pairing invariant — in the replacement walk of
`native`, the k-th rule dispatch (a `?` token with a nonempty source, or
a `:` token) uses exactly the k-th rule of the supplied rules list, and
the dispatching token positions are strictly increasing left to right;
stated under the program invariant that the count of `?`/`:` tokens
equals the number of supplied rules. -/
theorem rule_token_pairing :
    ∀ (ci : Bool) (tk : List Tok) (nd : Bool) (fargx : List (Nat × SemKind))
      (lrep : List RepTok) (rules : List (List PVal)) (old : List Char),
      lrep.countP (fun t => t == RepTok.ruleTok || t == RepTok.add) = rules.length →
      (∀ (k : Nat) (e : Nat × Nat × List PVal),
        ((nativeRun ci tk nd fargx lrep rules old).2.2)[k]? = some e →
          e.2.1 = k ∧ rules[k]? = some e.2.2) ∧
      List.Chain' (fun a b => a.1 < b.1) (nativeRun ci tk nd fargx lrep rules old).2.2 := by
  intro ci tk nd fargx lrep rules old hcount
  have hrun : (nativeRun ci tk nd fargx lrep rules old).2.2 =
      match nativeFilterPass ci tk nd fargx old with
      | none => []
      | some gs => (synthWalk gs (lastConsumerIdx lrep) lrep 0 0 0 none rules []).2.2 := by
    unfold nativeRun
    cases nativeFilterPass ci tk nd fargx old <;> rfl
  rw [hrun]
  cases hfp : nativeFilterPass ci tk nd fargx old with
  | none => simp
  | some gs =>
    have h := synthWalk_trace_inv gs (lastConsumerIdx lrep) rules lrep 0 0 0 none rules []
      (fun j _ => rfl)
    refine ⟨fun k e hk => ⟨((h.1 k e hk).1).trans (Nat.zero_add k), ?_⟩, h.2⟩
    have h2 := (h.1 k e hk).2.1
    simpa using h2

end Rene

namespace Rene

/-- Witness for C4: one bump rule with the one-`?` replacement `hap?`;
the hypothesis holds and the pairing conclusion follows. -/
theorem rule_token_pairing_w :
    (lrepOf "hap?".data).countP (fun t => t == RepTok.ruleTok || t == RepTok.add) =
      ([[PVal.s ['B'], .i 1, .i 0]] : List (List PVal)).length ∧
    ((∀ (k : Nat) (e : Nat × Nat × List PVal),
        ((nativeRun true [.lit '0', .lit '8', .star, .lit '-', .lit '0', .star] false []
          (lrepOf "hap?".data) [[PVal.s ['B'], .i 1, .i 0]]
          "08493357-001.tif".data).2.2)[k]? = some e →
          e.2.1 = k ∧ ([[PVal.s ['B'], .i 1, .i 0]] : List (List PVal))[k]? = some e.2.2) ∧
      List.Chain' (fun a b => a.1 < b.1)
        (nativeRun true [.lit '0', .lit '8', .star, .lit '-', .lit '0', .star] false []
          (lrepOf "hap?".data) [[PVal.s ['B'], .i 1, .i 0]] "08493357-001.tif".data).2.2) :=
  ⟨by decide,
   rule_token_pairing true [.lit '0', .lit '8', .star, .lit '-', .lit '0', .star] false []
     (lrepOf "hap?".data) [[PVal.s ['B'], .i 1, .i 0]] "08493357-001.tif".data (by decide)⟩


theorem natDigits_ne_nil (n : Nat) : natDigits n ≠ [] := by
  unfold natDigits natDigitsAux
  split <;> simp

theorem pyFmtZeroPad_ne_nil (w : Nat) (v : Int) : pyFmtZeroPad w v ≠ [] := by
  unfold pyFmtZeroPad
  split
  · simp
  · simp [natDigits_ne_nil]

/-- `nextName` applied at an offset equal to the length of a fixed root
never touches that root: the result is the root followed by a nonempty
remainder. -/
theorem nextName_keeps_prefix (pref mid r : List Char) (step : Int)
    (hmid : mid ≠ []) (h : nextName (pref ++ mid) step pref.length = some r) :
    ∃ mid2, mid2 ≠ [] ∧ r = pref ++ mid2 := by
  unfold nextName at h
  cases hlast : (pref ++ mid).getLast? with
  | none => rw [hlast] at h; simp at h
  | some c =>
    rw [hlast] at h
    simp only [] at h
    by_cases hd : c.isDigit
    · simp only [hd, if_true, List.drop_left, List.take_left] at h
      split at h
      · simp at h
      · rename_i hsn
        simp only [Option.some.injEq] at h
        refine ⟨_, ?_, h.symm.trans (by rw [List.append_assoc])⟩
        intro hc
        rcases List.append_eq_nil.mp hc with ⟨_, h2⟩
        exact pyFmtZeroPad_ne_nil _ _ h2
    · simp only [hd, if_false, Bool.false_eq_true] at h
      by_cases ha : c.isAlpha
      · simp only [ha, if_true, Option.some.injEq] at h
        rw [List.dropLast_append_of_ne_nil _ hmid] at h
        refine ⟨_, ?_, h.symm.trans (by rw [List.append_assoc])⟩
        intro hc
        rcases List.append_eq_nil.mp hc with ⟨_, h2⟩
        revert h2
        split <;> split <;> split <;> simp
      · simp only [ha, if_false, Bool.false_eq_true, Option.some.injEq] at h
        refine ⟨mid ++ intDecimal step, by simp [hmid], h.symm.trans (by rw [List.append_assoc])⟩



/-- With no decoration, merge off, and the iterating offset fixed at the
length of a root prefix, every candidate the avoidance loop tests from
`i ≥ 1` on keeps that root prefix intact. -/
theorem avoidLoop_tests_pref (nl disk : List (List Char)) (cfg : CAConfig)
    (ext pref : List Char) (hmerge : cfg.caMerge = false) :
    ∀ (fuel : Nat) (root mid : List Char) (i : Nat),
      1 ≤ i → mid ≠ [] → root = pref ++ mid →
      ∀ t ∈ (avoidLoop nl disk cfg ext 0 fuel pref.length root i).2,
        ∃ mid2, t = pref ++ mid2 ++ ext := by
  intro fuel
  induction fuel with
  | zero =>
    intro root mid i _ _ _ t ht
    simp [avoidLoop] at ht
  | succ fuel ih =>
    intro root mid i hi hmid hroot t ht
    subst hroot
    simp only [avoidLoop, ne_eq, not_true_eq_false, reduceIte, hmerge,
      Bool.false_eq_true, if_false] at ht
    have hine : ¬(i = 0) := by omega
    rw [if_neg hine] at ht
    split at ht
    · simp only [List.mem_singleton] at ht
      exact ⟨mid, by rw [ht, List.append_assoc]⟩
    · split at ht
      · simp only [List.mem_singleton] at ht
        exact ⟨mid, by rw [ht, List.append_assoc]⟩
      · split at ht
        · simp only [List.mem_singleton] at ht
          exact ⟨mid, by rw [ht, List.append_assoc]⟩
        · rename_i root3 hnn
          simp only [List.mem_cons] at ht
          rcases ht with ht | ht
          · exact ⟨mid, by rw [ht, List.append_assoc]⟩
          · rw [if_neg (fun hcond => hine hcond.2)] at ht
            rcases nextName_keeps_prefix pref mid root3 1 hmid hnn with ⟨mid2, hmid2, hroot3⟩
            exact ih root3 mid2 (i + 1) (by omega) hmid2 hroot3 t ht



set_option maxRecDepth 8000

/-- With no decoration, `avoid` is exactly the loop started on the
`greedyext` root with no pun length. -/
theorem avoid_eq_loop (nl disk : List (List Char)) (cfg : CAConfig)
    (name pref ext2 : List Char)
    (hpun : cfg.caPun = [])
    (hge : greedyext name = (pref, ext2)) :
    avoid nl disk cfg name = avoidLoop nl disk cfg ext2 0 100 0 pref 0 := by
  unfold avoid
  rw [hge, hpun]
  rfl

/-- Top-level version: with no decoration and merge off, every candidate
`avoid` tests keeps the root of the proposed name intact, only the
appended portion changing. -/
theorem avoid_tests_pref (nl disk : List (List Char)) (cfg : CAConfig)
    (name pref ext2 : List Char)
    (hmerge : cfg.caMerge = false) (hpun : cfg.caPun = [])
    (hge : greedyext name = (pref, ext2)) (hstart : cfg.caStart ≠ []) :
    ∀ t ∈ (avoid nl disk cfg name).2, ∃ mid, t = pref ++ mid ++ ext2 := by
  intro t ht
  rw [avoid_eq_loop nl disk cfg name pref ext2 hpun hge] at ht
  rw [show (100 : Nat) = 99 + 1 from rfl] at ht
  generalize (99 : Nat) = fl at ht
  simp only [avoidLoop, ne_eq, not_true_eq_false, reduceIte, hmerge,
    Bool.false_eq_true, if_false] at ht
  split at ht
  · simp only [List.mem_singleton] at ht
    exact ⟨[], by simp [ht]⟩
  · split at ht
    · omega
    · simp only [List.mem_cons] at ht
      rcases ht with ht | ht
      · exact ⟨[], by simp [ht]⟩
      · exact avoidLoop_tests_pref nl disk cfg ext2 pref hmerge fl
          (pref ++ cfg.caStart) cfg.caStart 1 (by omega) hstart rfl t ht



/-- C6: collision-avoidance default numeric scheme: with no merge,
starting token `0` and no decoration, proposing the colliding
`his-01.png` first tests `his-010.png`, then `his-011.png` if that also
collides; and in any environment, every candidate tested keeps the
original root `his-01` (and the extension), only the appended portion
changing. -/
theorem avoid_numeric_default :
    avoid [] ["his-01.png".data] defaultCA "his-01.png".data =
      (some "his-010.png".data, ["his-01.png".data, "his-010.png".data]) ∧
    avoid [] ["his-01.png".data, "his-010.png".data] defaultCA "his-01.png".data =
      (some "his-011.png".data,
        ["his-01.png".data, "his-010.png".data, "his-011.png".data]) ∧
    (∀ (nl disk : List (List Char)),
      ∀ t ∈ (avoid nl disk defaultCA "his-01.png".data).2,
        ∃ mid, t = "his-01".data ++ mid ++ ".png".data) := by
  refine ⟨by decide, by decide, ?_⟩
  intro nl disk t ht
  exact avoid_tests_pref nl disk defaultCA "his-01.png".data "his-01".data ".png".data
    rfl rfl (by decide) (by decide) t ht

/-- Witness for C6: the universal part applied to the first tested
candidate in the empty environment. -/
theorem avoid_numeric_default_w :
    ∃ mid, "his-01.png".data = "his-01".data ++ mid ++ ".png".data :=
  avoid_numeric_default.2.2 [] [] "his-01.png".data (by decide)


/-- A candidate name is free when it is neither queued in the batch nor
an existing file (the test at rene.py line 454). -/
def freeName (nl disk : List (List Char)) (t : List Char) : Prop :=
  t ∉ nl ∧ t ∉ disk

/-- The avoidance loop tests at most `11 - min i 10` candidates from
iteration `i` on (so at most 11 from the start). -/
theorem avoidLoop_len (nl disk : List (List Char)) (cfg : CAConfig) (ext : List Char)
    (cpl : Nat) :
    ∀ (fuel rootLen : Nat) (root : List Char) (i : Nat),
      (avoidLoop nl disk cfg ext cpl fuel rootLen root i).2.length ≤ 11 - min i 10 := by
  intro fuel
  induction fuel with
  | zero =>
    intro rootLen root i
    simp [avoidLoop]
  | succ fuel ih =>
    intro rootLen root i
    simp only [avoidLoop]
    split
    all_goals
      split
      · simp only [List.length_cons, List.length_nil]
        omega
      · split
        · simp only [List.length_cons, List.length_nil]
          omega
        · split
          · simp only [List.length_cons, List.length_nil]
            omega
          · rename_i root3 hnn
            simp only [List.length_cons]
            refine le_trans (Nat.succ_le_succ (ih _ root3 (i + 1))) ?_
            omega



/-- Prepending a colliding candidate to a test list preserves the
first-free-or-exhausted characterization. -/
theorem char_cons_step {nl disk : List (List Char)} {tname r : List Char}
    {rest : List (List Char)} {n : Nat}
    (hnfree : ¬ freeName nl disk tname)
    (h : (∃ pre, rest = pre ++ [r] ∧ freeName nl disk r ∧ ∀ t ∈ pre, ¬ freeName nl disk t) ∨
      (r = [] ∧ rest.length = n ∧ ∀ t ∈ rest, ¬ freeName nl disk t)) :
    (∃ pre, tname :: rest = pre ++ [r] ∧ freeName nl disk r ∧
      ∀ t ∈ pre, ¬ freeName nl disk t) ∨
    (r = [] ∧ (tname :: rest).length = n + 1 ∧
      ∀ t ∈ tname :: rest, ¬ freeName nl disk t) := by
  rcases h with ⟨pre, hpre, hfr, hcoll⟩ | ⟨hr0, hlen, hcoll⟩
  · refine Or.inl ⟨tname :: pre, by rw [hpre]; rfl, hfr, ?_⟩
    intro t htm
    rcases List.mem_cons.mp htm with htm | htm
    · subst htm
      exact hnfree
    · exact hcoll t htm
  · refine Or.inr ⟨hr0, by simp [hlen], ?_⟩
    intro t htm
    rcases List.mem_cons.mp htm with htm | htm
    · subst htm
      exact hnfree
    · exact hcoll t htm

/-- When the avoidance loop returns a name, it is the last candidate
tested and the first free one — unless the ceiling was hit, in which case
the failure signal `[]` is returned and every tested candidate
collided. -/
theorem avoidLoop_char (nl disk : List (List Char)) (cfg : CAConfig) (ext : List Char)
    (cpl : Nat) :
    ∀ (fuel i : Nat), i ≤ 10 → 11 - i ≤ fuel →
      ∀ (rootLen : Nat) (root : List Char) (r : List Char),
        (avoidLoop nl disk cfg ext cpl fuel rootLen root i).1 = some r →
        (∃ pre, (avoidLoop nl disk cfg ext cpl fuel rootLen root i).2 = pre ++ [r] ∧
          freeName nl disk r ∧ ∀ t ∈ pre, ¬ freeName nl disk t) ∨
        (r = [] ∧ (avoidLoop nl disk cfg ext cpl fuel rootLen root i).2.length = 11 - i ∧
          ∀ t ∈ (avoidLoop nl disk cfg ext cpl fuel rootLen root i).2, ¬ freeName nl disk t) := by
  intro fuel
  induction fuel with
  | zero =>
    intro i hi hf
    omega
  | succ fuel ih =>
    intro i hi hf rootLen root r
    simp only [avoidLoop]
    split
    all_goals
      split
      · rename_i hfree
        intro hr
        left
        simp only [Option.some.injEq] at hr
        subst hr
        exact ⟨[], rfl, hfree, by simp⟩
      · rename_i hnfree0
        split
        · intro hr
          right
          simp only [Option.some.injEq] at hr
          refine ⟨hr.symm, ?_, ?_⟩
          · simp only [List.length_cons, List.length_nil]
            omega
          · intro t htm
            simp only [List.mem_singleton] at htm
            subst htm
            exact hnfree0
        · rename_i hnine
          split
          · intro hr
            simp at hr
          · rename_i root3 hnn
            intro hr
            have h := ih (i + 1) (by omega) (by omega) _ root3 r hr
            have h2 := char_cons_step hnfree0 h
            rw [show 11 - (i + 1) + 1 = 11 - i from by omega] at h2
            exact h2


/-- `nextName` with step 1 always returns a name when the offset leaves a
nonempty tail of the string. -/
theorem nextName_isSome_of_lt (root : List Char) (rootLen : Nat)
    (h : rootLen < root.length) : (nextName root 1 rootLen).isSome = true := by
  have hne : root ≠ [] := by
    intro h0
    subst h0
    simp at h
  cases hlast : root.getLast? with
  | none => exact absurd (List.getLast?_eq_none.mp hlast) hne
  | some c =>
    unfold nextName
    rw [hlast]
    by_cases hd : c.isDigit
    · simp only [hd, if_true]
      have hlast2 : (root.drop rootLen).getLast? = some c := by
        rw [List.getLast?_drop]
        rw [if_neg (by omega : ¬ root.length ≤ rootLen)]
        exact hlast
      have hsn : ((root.drop rootLen).reverse.takeWhile Char.isDigit) ≠ [] := by
        have hh : (root.drop rootLen).reverse.head? = some c := by
          rw [List.head?_reverse]
          exact hlast2
        cases hrev : (root.drop rootLen).reverse with
        | nil => simp [hrev] at hh
        | cons a as =>
          rw [hrev] at hh
          simp only [List.head?_cons, Option.some.injEq] at hh
          subst hh
          simp [List.takeWhile_cons, hd]
      split
      · rename_i hcond
        exact absurd (by simpa using hcond) hsn
      · simp
    · by_cases ha : c.isAlpha
      · simp [hd, ha]
      · simp [hd, ha]

/-- From iteration 1 on, with merge off and the pun length either absent
or the length of the decoration, the avoidance loop always returns
(`some`): the iterating tail stays nonempty so `nextName` never fails. -/
theorem avoidLoop_isSome (nl disk : List (List Char)) (cfg : CAConfig) (ext : List Char)
    (cpl : Nat) (hmerge : cfg.caMerge = false)
    (hcpl : cpl = 0 ∨ cpl = cfg.caPun.length) :
    ∀ (fuel : Nat) (root : List Char) (rootLen i : Nat),
      1 ≤ i → rootLen < root.length →
      ((avoidLoop nl disk cfg ext cpl fuel rootLen root i).1).isSome = true := by
  intro fuel
  induction fuel with
  | zero =>
    intro root rootLen i _ _
    simp [avoidLoop]
  | succ fuel ih =>
    intro root rootLen i hi hlen
    have hstep : ∀ (root3 : List Char),
        nextName root 1 rootLen = some root3 → rootLen < root3.length := by
      intro root3 hnn
      have hsplit : root.take rootLen ++ root.drop rootLen = root := List.take_append_drop _ _
      have hlen2 : (root.take rootLen).length = rootLen := by
        rw [List.length_take]
        omega
      have hmid : root.drop rootLen ≠ [] := by
        intro h0
        have := List.drop_eq_nil_iff_le.mp h0
        omega
      have h3 : nextName (root.take rootLen ++ root.drop rootLen) 1
          (root.take rootLen).length = some root3 := by
        rw [hsplit, hlen2]
        exact hnn
      rcases nextName_keeps_prefix _ _ _ _ hmid h3 with ⟨mid2, hmid2, hroot3⟩
      have hm2 : 0 < mid2.length := List.length_pos.mpr hmid2
      rw [hroot3, List.length_append, hlen2]
      omega
    have hi0 : ¬ i = 0 := by omega
    simp only [avoidLoop]
    by_cases hc : cpl = 0
    · subst hc
      simp only [hmerge, hi0, ne_eq, not_true_eq_false, if_false, reduceIte,
        Bool.false_eq_true, not_false_iff, false_and, and_false, true_and, if_true]
      split
      · simp
      · split
        · simp
        · cases hnn : nextName root 1 rootLen with
          | none =>
            have hx := nextName_isSome_of_lt root rootLen hlen
            rw [hnn] at hx
            simp at hx
          | some root3 =>
            exact ih root3 rootLen (i + 1) (by omega) (hstep root3 hnn)
    · have htake : (root ++ cfg.caPun).take ((root ++ cfg.caPun).length - cpl) = root := by
        rcases hcpl with h0 | hp
        · exact absurd h0 hc
        · rw [hp, show (root ++ cfg.caPun).length - cfg.caPun.length = root.length from by
            simp]
          exact List.take_left root cfg.caPun
      simp only [hc, hmerge, hi0, ne_eq, not_false_iff, if_true, reduceIte,
        Bool.false_eq_true, if_false, htake, false_and, and_false, true_and,
        not_true_eq_false]
      split
      · simp
      · split
        · simp
        · cases hnn : nextName root 1 rootLen with
          | none =>
            have hx := nextName_isSome_of_lt root rootLen hlen
            rw [hnn] at hx
            simp at hx
          | some root3 =>
            exact ih root3 rootLen (i + 1) (by omega) (hstep root3 hnn)



/-- The full loop (fuel 100, iteration 0) always returns for a non-merge
scheme with a nonempty starting token. -/
theorem avoidLoop_isSome0 (nl disk : List (List Char)) (cfg : CAConfig) (ext : List Char)
    (cpl : Nat) (hmerge : cfg.caMerge = false)
    (hcpl : cpl = 0 ∨ cpl = cfg.caPun.length) (hstart : cfg.caStart ≠ []) :
    ∀ (root : List Char) (rootLen : Nat),
      ((avoidLoop nl disk cfg ext cpl 100 rootLen root 0).1).isSome = true := by
  intro root rootLen
  have hlp : 0 < cfg.caStart.length := List.length_pos.mpr hstart
  rw [show (100 : Nat) = 99 + 1 from rfl]
  generalize (99 : Nat) = fl
  by_cases hc : cpl = 0
  · subst hc
    simp only [avoidLoop, hmerge, Bool.false_eq_true, if_false, reduceIte, ne_eq,
      not_true_eq_false, not_false_iff, true_and, and_true, false_and, and_false, if_true]
    split
    · simp
    · split
      · simp
      · exact avoidLoop_isSome nl disk cfg ext 0 hmerge (Or.inl rfl) fl
          (root ++ cfg.caStart) root.length 1 (le_refl 1)
          (by simp only [List.length_append]; omega)
  · have htake : (root ++ cfg.caPun).take ((root ++ cfg.caPun).length - cpl) = root := by
      rcases hcpl with h0 | hp
      · exact absurd h0 hc
      · rw [hp, show (root ++ cfg.caPun).length - cfg.caPun.length = root.length from by
          simp]
        exact List.take_left root cfg.caPun
    simp only [avoidLoop, hmerge, Bool.false_eq_true, if_false, reduceIte, ne_eq, hc,
      not_false_iff, if_true, htake, not_true_eq_false, true_and, and_true, false_and,
      and_false]
    split
    · simp
    · split
      · simp
      · exact avoidLoop_isSome nl disk cfg ext cpl hmerge hcpl fl
          (root ++ cfg.caStart) root.length 1 (le_refl 1)
          (by simp only [List.length_append]; omega)

/-- `avoid` always returns for a non-merge scheme with a nonempty
starting token, whatever the decoration configuration. -/
theorem avoid_isSome (nl disk : List (List Char)) (cfg : CAConfig) (name : List Char)
    (hmerge : cfg.caMerge = false) (hstart : cfg.caStart ≠ []) :
    ((avoid nl disk cfg name).1).isSome = true := by
  unfold avoid
  by_cases h1 : cfg.caPun = []
  · simp only [h1, reduceIte]
    exact avoidLoop_isSome0 nl disk cfg (greedyext name).2 0 hmerge (Or.inl rfl) hstart _ _
  · by_cases h2 : cfg.caPunPos = 0
    · simp only [h1, h2, reduceIte, if_true, if_false]
      exact avoidLoop_isSome0 nl disk cfg (greedyext name).2 0 hmerge (Or.inl rfl) hstart _ _
    · by_cases h3 : cfg.caPunPos = 1
      · simp only [h1, h2, h3, reduceIte, if_true, if_false]
        exact avoidLoop_isSome0 nl disk cfg (greedyext name).2 0 hmerge (Or.inl rfl) hstart _ _
      · by_cases h4 : cfg.caPunPos = 2
        · simp only [h1, h2, h3, h4, reduceIte, if_true, if_false]
          exact avoidLoop_isSome0 nl disk cfg (greedyext name).2 cfg.caPun.length hmerge
            (Or.inr rfl) hstart _ _
        · simp only [h1, h2, h3, h4, reduceIte, if_true, if_false]
          exact avoidLoop_isSome0 nl disk cfg (greedyext name).2 0 hmerge (Or.inl rfl) hstart _ _



/-- C3 (counterexample): with the reachable configuration `-X//` (empty
starting token) and a collision that persists past the first modification,
`avoid` returns nothing at all — the Python crashes in `nextName` — so
"avoid always returns the first free candidate or the empty string" fails
as stated. -/
theorem avoid_crash_counterexample :
    (avoid ["a1.txt".data] [] ⟨[], 1, false, []⟩ "a1.txt".data).1 = none ∧
    (avoid ["a1.txt".data] [] ⟨[], 1, false, []⟩ "a1.txt".data).2 =
      ["a1.txt".data, "a1.txt".data] := by decide

/-- C3 (amended): `avoid` tests the (possibly decorated) proposed name
and at most 10 successively modified candidates (11 tests in all); when
it returns a name, that name is the last candidate tested and the first
free one, and when all 11 candidates collide it returns the empty string;
and it does return — rather than crash in `nextName` — whenever merge is
off and the configured starting token is nonempty (the default
configuration). -/
theorem avoid_bounded_search :
    ∀ (nl disk : List (List Char)) (cfg : CAConfig) (name : List Char),
      ((avoid nl disk cfg name).2.length ≤ 11) ∧
      (∀ r, (avoid nl disk cfg name).1 = some r →
        (∃ pre, (avoid nl disk cfg name).2 = pre ++ [r] ∧ freeName nl disk r ∧
          ∀ t ∈ pre, ¬ freeName nl disk t) ∨
        (r = [] ∧ (avoid nl disk cfg name).2.length = 11 ∧
          ∀ t ∈ (avoid nl disk cfg name).2, ¬ freeName nl disk t)) ∧
      (cfg.caMerge = false → cfg.caStart ≠ [] → ((avoid nl disk cfg name).1).isSome = true) := by
  intro nl disk cfg name
  refine ⟨?_, ?_, fun hm hs => avoid_isSome nl disk cfg name hm hs⟩
  · refine le_trans (avoidLoop_len nl disk cfg _ _ 100 _ _ 0) (by omega)
  · intro r hr
    exact avoidLoop_char nl disk cfg _ _ 100 0 (by omega) (by omega) _ _ r hr

/-- Witness for amended C3: the default configuration on a free name. -/
theorem avoid_bounded_search_w :
    ((avoid [] [] defaultCA "a.png".data).2.length ≤ 11) ∧
    ((∃ pre, (avoid [] [] defaultCA "a.png".data).2 = pre ++ ["a.png".data] ∧
        freeName [] [] "a.png".data ∧ ∀ t ∈ pre, ¬ freeName [] [] t) ∨
      ("a.png".data = [] ∧ (avoid [] [] defaultCA "a.png".data).2.length = 11 ∧
        ∀ t ∈ (avoid [] [] defaultCA "a.png".data).2, ¬ freeName [] [] t)) ∧
    ((avoid [] [] defaultCA "a.png".data).1).isSome = true :=
  ⟨(avoid_bounded_search [] [] defaultCA "a.png".data).1,
   (avoid_bounded_search [] [] defaultCA "a.png".data).2.1 "a.png".data (by decide),
   (avoid_bounded_search [] [] defaultCA "a.png".data).2.2 rfl (by decide)⟩

/-- The first success of a backtracking search exists iff some alternative
succeeds. -/
theorem firstSome_isSome_iff {α β : Type} (f : α → Option β) :
    ∀ l : List α, (firstSome f l).isSome = true ↔ ∃ a ∈ l, (f a).isSome = true := by
  intro l
  induction l with
  | nil => simp [firstSome]
  | cons a as ih =>
    cases hf : f a with
    | none =>
      simp only [firstSome, hf, List.mem_cons, ih]
      constructor
      · rintro ⟨x, hx, h⟩
        exact ⟨x, Or.inr hx, h⟩
      · rintro ⟨x, hx | hx, h⟩
        · subst hx
          rw [hf] at h
          simp at h
        · exact ⟨x, hx, h⟩
    | some b =>
      simp only [firstSome, hf]
      constructor
      · intro _
        exact ⟨a, List.mem_cons_self a as, by rw [hf]; rfl⟩
      · intro _
        rfl

/-- Membership in the non-greedy split list: exactly the take/drop pairs. -/
theorem mem_splitsND (xs : List Char) (pr : List Char × List Char) :
    pr ∈ splitsND xs ↔ ∃ n, n ≤ xs.length ∧ pr = (xs.take n, xs.drop n) := by
  simp only [splitsND, List.mem_map, List.mem_range, Nat.lt_succ_iff]
  constructor
  · rintro ⟨n, hn, rfl⟩
    exact ⟨n, hn, rfl⟩
  · rintro ⟨n, hn, rfl⟩
    exact ⟨n, hn, rfl⟩

/-- Membership in the suffix list: exactly the drops. -/
theorem mem_listSuffixes : ∀ (xs s : List Char),
    s ∈ listSuffixes xs ↔ ∃ n, n ≤ xs.length ∧ s = xs.drop n := by
  intro xs
  induction xs with
  | nil =>
    intro s
    constructor
    · intro hs
      simp only [listSuffixes, List.mem_singleton] at hs
      exact ⟨0, Nat.le_refl 0, hs⟩
    · rintro ⟨n, hn, rfl⟩
      simp [listSuffixes]
  | cons x t ih =>
    intro s
    simp only [listSuffixes, List.mem_cons, ih]
    constructor
    · rintro (rfl | ⟨n, hn, rfl⟩)
      · exact ⟨0, Nat.zero_le _, rfl⟩
      · refine ⟨n + 1, ?_, rfl⟩
        simp only [List.length_cons]
        omega
    · rintro ⟨n, hn, rfl⟩
      cases n with
      | zero => exact Or.inl rfl
      | succ m =>
        refine Or.inr ⟨m, ?_, rfl⟩
        simp only [List.length_cons] at hn
        omega

/-- The naive glob matcher on a leading star: some suffix matches the
rest. -/
theorem globMatch_star_iff (ci : Bool) (ps xs : List Char) :
    globMatch ci ('*' :: ps) xs = true ↔
      ∃ n, n ≤ xs.length ∧ globMatch ci ps (xs.drop n) = true := by
  have h : globMatch ci ('*' :: ps) xs
      = (listSuffixes xs).any (fun s => globMatch ci ps s) := by
    simp [globMatch]
  rw [h, List.any_eq_true]
  constructor
  · rintro ⟨s, hs, hg⟩
    rcases (mem_listSuffixes xs s).mp hs with ⟨n, hn, rfl⟩
    exact ⟨n, hn, hg⟩
  · rintro ⟨n, hn, hg⟩
    exact ⟨xs.drop n, (mem_listSuffixes xs _).mpr ⟨n, hn, rfl⟩, hg⟩

/-- A newline-free list stays newline-free in the no-newline check. -/
theorem noNL_of_not_mem (l : List Char) (h : '\n' ∉ l) : noNL l = true := by
  rw [noNL, List.all_eq_true]
  intro x hx
  rw [bne_iff_ne]
  intro hxe
  exact h (hxe ▸ hx)

/-- On a newline-free name, the backtracking matcher on a leading
non-greedy star succeeds iff the rest matches some suffix (greediness only
changes which capture is chosen, not whether a match exists). -/
theorem reMatch_star_iff (ci : Bool) (ts : List Tok) (xs : List Char) (hnl : '\n' ∉ xs) :
    (reMatch ci (Tok.star :: ts) xs).isSome = true ↔
      ∃ n, n ≤ xs.length ∧ (reMatch ci ts (xs.drop n)).isSome = true := by
  have h : reMatch ci (Tok.star :: ts) xs
      = firstSome (fun pr =>
          if noNL pr.1 then (reMatch ci ts pr.2).map (pr.1 :: ·) else none)
        (splitsND xs) := rfl
  rw [h, firstSome_isSome_iff]
  constructor
  · rintro ⟨pr, hpr, hsome⟩
    rcases (mem_splitsND xs pr).mp hpr with ⟨n, hn, rfl⟩
    refine ⟨n, hn, ?_⟩
    have hg : noNL (xs.take n) = true :=
      noNL_of_not_mem _ (fun hm => hnl (List.take_subset n xs hm))
    simpa [hg] using hsome
  · rintro ⟨n, hn, hsome⟩
    refine ⟨(xs.take n, xs.drop n), (mem_splitsND xs _).mpr ⟨n, hn, rfl⟩, ?_⟩
    have hg : noNL (xs.take n) = true :=
      noNL_of_not_mem _ (fun hm => hnl (List.take_subset n xs hm))
    simpa [hg] using hsome

/-- On a newline-free name, the character-by-character translation the
specification describes (literal verbatim, star, one) matches iff the
naive glob matcher accepts: greedy and non-greedy stars select the same
names, no capture can be blocked by a newline, and the end anchor reduces
to exact end of string. -/
theorem reMatch_glob (ci : Bool) :
    ∀ (ps xs : List Char), '\n' ∉ xs →
      (reMatch ci (ps.map tokOfChar) xs).isSome = globMatch ci ps xs := by
  intro ps
  induction ps with
  | nil =>
    intro xs hnl
    cases xs with
    | nil => rfl
    | cons x t =>
      have hae : atEnd (x :: t) = false := by
        rw [atEnd, decide_eq_false_iff_not]
        rintro (h | h)
        · exact List.noConfusion h
        · exact (h ▸ hnl) (List.mem_cons_self '\n' [])
      show (reMatch ci ([] : List Tok) (x :: t)).isSome = globMatch ci [] (x :: t)
      have h : reMatch ci ([] : List Tok) (x :: t)
          = if atEnd (x :: t) then some [] else none := rfl
      rw [h, hae]
      rfl
  | cons p ps ih =>
    intro xs hnl
    by_cases hstar : p = '*'
    · subst hstar
      have htok : List.map tokOfChar ('*' :: ps) = Tok.star :: ps.map tokOfChar := rfl
      rw [htok, Bool.eq_iff_iff, reMatch_star_iff ci _ xs hnl, globMatch_star_iff]
      constructor
      · rintro ⟨n, hn, h⟩
        refine ⟨n, hn, ?_⟩
        rw [← ih (xs.drop n) (fun hm => hnl (List.drop_subset n xs hm))]
        exact h
      · rintro ⟨n, hn, h⟩
        refine ⟨n, hn, ?_⟩
        rw [ih (xs.drop n) (fun hm => hnl (List.drop_subset n xs hm))]
        exact h
    · by_cases hone : p = '?'
      · subst hone
        have htok : List.map tokOfChar ('?' :: ps) = Tok.one :: ps.map tokOfChar := rfl
        rw [htok]
        cases xs with
        | nil => rfl
        | cons x t =>
          have hx : ¬ x = '\n' := fun h => hnl (h ▸ List.mem_cons_self x t)
          have hglob : globMatch ci ('?' :: ps) (x :: t) = globMatch ci ps t := by
            simp [globMatch]
          have hre : reMatch ci (Tok.one :: ps.map tokOfChar) (x :: t)
              = if x = '\n' then none
                else (reMatch ci (ps.map tokOfChar) t).map ([x] :: ·) := rfl
          rw [hglob, hre, if_neg hx, ← ih t (fun hm => hnl (List.mem_cons_of_mem x hm))]
          simp
      · have htok : List.map tokOfChar (p :: ps) = Tok.lit p :: ps.map tokOfChar := by
          simp [tokOfChar, hstar, hone]
        rw [htok]
        cases xs with
        | nil =>
          have hglob : globMatch ci (p :: ps) [] = false := by
            simp [globMatch, hstar, hone]
          rw [hglob]
          rfl
        | cons x t =>
          have hglob : globMatch ci (p :: ps) (x :: t)
              = (charEq ci p x && globMatch ci ps t) := by
            simp [globMatch, hstar, hone]
          have hre : reMatch ci (Tok.lit p :: ps.map tokOfChar) (x :: t)
              = if charEq ci p x then reMatch ci (ps.map tokOfChar) t else none := rfl
          rw [hglob, hre]
          by_cases hce : charEq ci p x = true
          · rw [if_pos hce, hce, Bool.true_and,
              ih t (fun hm => hnl (List.mem_cons_of_mem x hm))]
          · rw [if_neg hce]
            have hcf : charEq ci p x = false := by
              rw [← Bool.not_eq_true]
              exact hce
            rw [hcf, Bool.false_and]
            rfl

/-- When the filter does not end in a dot, neither trailing-dot
convenience of the compiler fires: the compiled token list is the plain
character-by-character translation, and the no-dot flag is exactly the
leading star-dot test. -/
theorem compileNative_plain (filt : List Char) (tk : List Tok) (nd : Bool)
    (hc : compileNative filt = some (tk, nd)) (hlast : filt.getLast? ≠ some '.') :
    tk = filt.map tokOfChar ∧ nd = decide (filt.take 2 = ['*', '.']) := by
  simp only [compileNative] at hc
  split at hc
  · simp at hc
  · split at hc
    · simp at hc
    · split at hc
      · rename_i h2
        exfalso
        apply hlast
        have hdl : (filt.drop (filt.length - 2)).getLast? = some '.' := by
          rw [h2.2]
          rfl
        rw [List.getLast?_drop] at hdl
        have hlt : ¬ filt.length ≤ filt.length - 2 := by
          have h2' := h2.1
          omega
        rw [if_neg hlt] at hdl
        exact hdl
      · rw [Option.some.injEq, Prod.mk.injEq] at hc
        refine ⟨?_, hc.2.symm⟩
        rw [← hc.1]
        simp

/-- C7 counterexample: the filter a*. has no semantic extension clauses,
yet native selects the name ab (the compiler turns the trailing star-dot
into a greedy no-dot capture, so no literal dot is required) while the
claimed structural pattern a, any-run, literal dot does not match ab; the
leading-dot exception is irrelevant here (the filter does not start with
star-dot and the name does not start with a dot).  This refutes the
claimed equivalence for filters ending in star-dot. -/
theorem filter_glob_counterexample :
    compileNative ['a', '*', '.'] = some ([Tok.lit 'a', Tok.noDotStar], false) ∧
    (nativeFilterPass true [Tok.lit 'a', Tok.noDotStar] false [] ['a', 'b']).isSome = true ∧
    globMatch true ['a', '*', '.'] ['a', 'b'] = false ∧
    ¬ (List.take 2 ['a', '*', '.'] = ['*', '.']) ∧
    ¬ (['a', 'b'].head? = some '.') := by
  decide

/-- C7 (amended): for every filter the embedding compiles (no semantic
extension clauses, no regex metacharacters, legal characters, no adjacent
stars) that does not end in a dot, and every nonempty newline-free name,
native selects the name iff it matches the naive structural glob pattern
(literals verbatim, star an arbitrary run, question mark one character,
anchored at both ends) and is not a leading-dot name excluded by a filter
whose first two characters are star-dot.  Names containing a newline are
excluded because Python regex semantics break the equivalence there: the
dot of the compiled captures cannot consume a newline, and the end anchor
also accepts one trailing newline. -/
theorem filter_structural_amended (ci : Bool) (filt name : List Char)
    (tk : List Tok) (nd : Bool)
    (hc : compileNative filt = some (tk, nd))
    (hlast : filt.getLast? ≠ some '.')
    (hne : name ≠ [])
    (hnl : '\n' ∉ name) :
    (nativeFilterPass ci tk nd [] name).isSome =
      (globMatch ci filt name &&
        !(decide (List.take 2 filt = ['*', '.']) && decide (name.head? = some '.'))) := by
  rcases compileNative_plain filt tk nd hc hlast with ⟨htk, hnd⟩
  subst htk
  subst hnd
  unfold nativeFilterPass
  cases hm : reMatch ci (filt.map tokOfChar) name with
  | none =>
    have hg : globMatch ci filt name = false := by
      rw [← reMatch_glob ci filt name hnl, hm]
      rfl
    simp [hg]
  | some gs =>
    have hg : globMatch ci filt name = true := by
      rw [← reMatch_glob ci filt name hnl, hm]
      rfl
    by_cases ha : List.take 2 filt = ['*', '.'] <;> by_cases hb : name.head? = some '.' <;>
      simp [ha, hb, hg]

/-- C7 witness: the amended equivalence applied to the filter a*c and the
name abc, whose compilation, non-dot ending, nonemptiness and
newline-freeness are checked concretely. -/
theorem filter_structural_amended_w :
    (nativeFilterPass true [Tok.lit 'a', Tok.star, Tok.lit 'c'] false [] ['a', 'b', 'c']).isSome =
      (globMatch true ['a', '*', 'c'] ['a', 'b', 'c'] &&
        !(decide (List.take 2 ['a', '*', 'c'] = ['*', '.']) &&
          decide (['a', 'b', 'c'].head? = some '.'))) :=
  filter_structural_amended true ['a', '*', 'c'] ['a', 'b', 'c']
    [Tok.lit 'a', Tok.star, Tok.lit 'c'] false (by decide) (by decide) (by decide) (by decide)

end Rene
